import Mathlib

/-!
Shallow embedding of the podcast tech-radar core: the chunk windower
(`src/tech_radar/chunking.py`), the string utilities it relies on
(`src/tech_radar/utils.py`), the ingestion refinement loop
(`src/tech_radar/nodes.py`, `src/tech_radar/graph.py`), the QA fusion path
(`qa_chain` in `nodes.py` together with the storage fetches), assertion
post-processing (`assertion_extractor`), and entity upsertion
(`src/tech_radar/storage.py`).  Machine integers are modelled as `Nat`/`Int`,
floats (similarity scores, distances) as `ℚ`, Python strings as `String`
(sequences of characters), Python dicts as insertion-ordered association
lists, and the database tables as lists of rows in row order.
-/

/-! ## String utilities (`utils.py`) -/

/-- Helper for Python's regex substitution of each whitespace run by a single
space: the flag records whether the previous character was whitespace (so a
run emits exactly one space, at its first character). -/
def collapseAux : Bool → List Char → List Char
  | _, [] => []
  | prevWs, c :: cs =>
    if c.isWhitespace then
      if prevWs then collapseAux true cs else ' ' :: collapseAux true cs
    else c :: collapseAux false cs

/-- Python's `re.sub(r"\s+", " ", ·)` over the character list of a string. -/
def collapseChars (l : List Char) : List Char :=
  collapseAux false l

/-- Drop trailing whitespace of a character list (Python `str.rstrip`). -/
def rstripChars (l : List Char) : List Char :=
  (l.reverse.dropWhile (fun d => d.isWhitespace)).reverse

/-- Drop leading and trailing whitespace (Python `str.strip`). -/
def stripChars (l : List Char) : List Char :=
  rstripChars (l.dropWhile (fun d => d.isWhitespace))

/-- Python `str.strip` as a `String` operation. -/
def pyStrip (s : String) : String :=
  String.mk (stripChars s.data)

/-- Python `str.lower` as a `String` operation (character-wise lowering). -/
def pyLower (s : String) : String :=
  String.mk (s.data.map Char.toLower)

/-- `utils.compact_spaces`: collapse whitespace runs to single spaces, then
strip leading/trailing whitespace. -/
def compact_spaces (value : String) : String :=
  pyStrip (String.mk (collapseChars value.data))

/-- `utils.normalize_name`: strip, collapse interior whitespace, lowercase. -/
def normalize_name (value : String) : String :=
  pyLower (String.mk (collapseChars (pyStrip value).data))

/-- `utils.take_quote`: compact the text; if it fits in `limit` characters
return it, otherwise truncate to `limit - 3` characters, right-strip and
append an ellipsis. -/
def take_quote (text : String) (limit : Nat) : String :=
  let trimmed := (compact_spaces text).data
  if trimmed.length ≤ limit then
    String.mk trimmed
  else
    String.mk (rstripChars (trimmed.take (limit - 3)) ++ [ '.', '.', '.' ])

/-- `utils.estimate_tokens`: `max(1, len(text) // 4)`. -/
def estimate_tokens (text : String) : Nat :=
  max 1 (text.length / 4)

/-- Zero-padded rendering of a nonnegative integer to at least two digits
(Python format spec `{:02d}` on a nonnegative value). -/
def pad2 (n : Nat) : String :=
  if n < 10 then String.mk [ '0' ] ++ toString n else toString n

/-- `utils.seconds_to_hms` on an optional nonnegative seconds value. -/
def seconds_to_hms (seconds : Option Nat) : String :=
  match seconds with
  | none => String.mk "00:00:00".data
  | some s =>
      pad2 (s / 3600) ++ String.mk [ ':' ] ++ pad2 ((s % 3600) / 60)
        ++ String.mk [ ':' ] ++ pad2 (s % 60)

/-- Python's `x or default` for an optional string field (`None` and the
empty string are falsy). -/
def pyOrString (o : Option String) (d : String) : String :=
  match o with
  | none => d
  | some s => if s = String.mk [] then d else s

/-! ## Data model (`schemas.py`), restricted to the fields the core uses -/

/-- `schemas.Segment`. -/
structure Segment where
  id : Option Nat
  speaker : Option String
  t_start_sec : Option Nat
  t_end_sec : Option Nat
  youtube_url : Option String
  text : String
  deriving Repr, DecidableEq

/-- `schemas.Topic`. -/
structure Topic where
  id : Option Nat
  name : String
  summary : String
  start_seg_id : Option Nat
  end_seg_id : Option Nat
  deriving Repr, DecidableEq

/-- `schemas.Chunk`, as produced by the windower. -/
structure Chunk where
  topic_id : Option Nat
  start_seg_id : Option Nat
  end_seg_id : Option Nat
  t_start_sec : Option Nat
  t_end_sec : Option Nat
  segment_ids : List Nat
  chunk_text : String
  deriving Repr, DecidableEq

/-! ## Chunk windower (`chunking.py`) -/

/-- Header line of a segment inside a chunk rendering
(`chunking._build_chunk_text`, per-segment part). -/
def segmentHeader (seg : Segment) : String :=
  let link := match seg.youtube_url with
    | none => String.mk []
    | some u =>
        if u = String.mk [] then String.mk []
        else String.mk [ '[' ] ++ u ++ String.mk [ ']' ]
  pyOrString seg.speaker (String.mk "Unknown".data) ++ String.mk " (".data
    ++ seconds_to_hms seg.t_start_sec ++ String.mk [ ')' ] ++ link

/-- `chunking._build_chunk_text`: optional topic header, then per segment a
speaker/timestamp/link header and the segment body, joined by newlines and
stripped. -/
def build_chunk_text (topic : Option Topic) (segments : List Segment) : String :=
  let head := match topic with
    | none => ([] : List String)
    | some t => [String.mk "[Topic: ".data ++ t.name ++ String.mk [ ']' ]]
  let lines := head ++ segments.flatMap (fun seg => [segmentHeader seg, seg.text])
  pyStrip (String.intercalate (String.mk [ '\n' ]) lines)

/-- `chunking._make_chunk` (the boundary projections return `none` instead of
raising on an empty window). -/
def make_chunk (topic : Option Topic) (segments : List Segment) (chunk_text : String) : Chunk :=
  { topic_id := topic.bind (fun t => t.id)
    start_seg_id := segments.head?.bind (fun s => s.id)
    end_seg_id := segments.getLast?.bind (fun s => s.id)
    t_start_sec := segments.head?.bind (fun s => s.t_start_sec)
    t_end_sec := segments.getLast?.bind (fun s => s.t_end_sec)
    segment_ids := segments.filterMap (fun s => s.id)
    chunk_text := chunk_text }

/-- The right-trim loop of `chunking._build_topic_chunks`, with an explicit
iteration bound (structural recursion on the bound): while the rendered text
exceeds the token budget and the window still has more than `min_segs`
segments, drop the last segment and re-render.  Each iteration shortens the
window by one and requires it nonempty, so a bound of the window's length is
never exhausted. -/
def trimWindowAux (topic : Option Topic) (max_tokens min_segs : Nat) :
    Nat → List Segment → List Segment × String
  | 0, window => (window, build_chunk_text topic window)
  | fuel + 1, window =>
    if estimate_tokens (build_chunk_text topic window) > max_tokens ∧
        window.length > min_segs then
      trimWindowAux topic max_tokens min_segs fuel window.dropLast
    else
      (window, build_chunk_text topic window)

/-- The right-trim loop of `chunking._build_topic_chunks`: returns the final
window and its rendered text. -/
def trimWindow (topic : Option Topic) (max_tokens min_segs : Nat) (window : List Segment) :
    List Segment × String :=
  trimWindowAux topic max_tokens min_segs window.length window

/-- The window loop of `chunking._build_topic_chunks`, with the running start
index explicit and an iteration bound (structural recursion on the bound):
each iteration advances the start index by at least 1 and stops once it
reaches the segment count, so a bound of the segment count is never
exhausted. -/
def buildWindowsAux (topic : Option Topic) (segments : List Segment)
    (max_tokens min_segs max_segs overlap : Nat) : Nat → Nat → List Chunk
  | 0, _ => []
  | fuel + 1, idx =>
    if idx < segments.length then
      if ((segments.drop idx).take max_segs).length < min_segs then []
      else
        if (trimWindow topic max_tokens min_segs ((segments.drop idx).take max_segs)).1.length
            < min_segs then []
        else
          make_chunk topic
              (trimWindow topic max_tokens min_segs ((segments.drop idx).take max_segs)).1
              (trimWindow topic max_tokens min_segs ((segments.drop idx).take max_segs)).2 ::
            buildWindowsAux topic segments max_tokens min_segs max_segs overlap fuel
              (idx + max 1 ((trimWindow topic max_tokens min_segs
                ((segments.drop idx).take max_segs)).1.length - overlap))
    else []

/-- `chunking._build_topic_chunks`. -/
def build_topic_chunks (topic : Option Topic) (segments : List Segment)
    (max_tokens min_segs max_segs overlap : Nat) : List Chunk :=
  buildWindowsAux topic segments max_tokens min_segs max_segs overlap segments.length 0

/-- Stable insertion of `x` into `acc`: `x` is placed before the first
element it must precede, after every earlier element it ties with. -/
def stableInsert {α : Type} (goesBefore : α → α → Bool) (x : α) : List α → List α
  | [] => [x]
  | y :: ys => if goesBefore x y then x :: y :: ys else y :: stableInsert goesBefore x ys

/-- Stable sort by repeated insertion, modelling Python's stable `sort`/
`sorted`: an element is placed after all earlier elements that do not
strictly come after it. -/
def stableSort {α : Type} (goesBefore : α → α → Bool) (l : List α) : List α :=
  l.foldl (fun acc x => stableInsert goesBefore x acc) []

/-- `chunking._topic_ranges`. -/
def topic_ranges (topics : List Topic) (segments : List Segment) :
    List (Option Topic × List Segment) :=
  if topics = [] then [(none, segments)]
  else
    let seg_ids := segments.filterMap (fun s => s.id)
    topics.map (fun topic =>
      match topic.start_seg_id, topic.end_seg_id with
      | some s, some e =>
          if s ∈ seg_ids ∧ e ∈ seg_ids then
            let start_idx := seg_ids.indexOf s
            let end_idx := seg_ids.indexOf e
            if start_idx ≤ end_idx then
              (some topic, (segments.drop start_idx).take (end_idx + 1 - start_idx))
            else (some topic, segments)
          else (some topic, segments)
      | _, _ => (some topic, segments))

/-- The `ordered_segments` preamble of `chunking.build_chunks_from_topics`:
keep segments with an id and sort them (stably) by id. -/
def orderedSegments (segments : List Segment) : List Segment :=
  stableSort (fun a b => decide ((a.id.getD 0 : Nat) < b.id.getD 0))
    (segments.filter (fun s => s.id.isSome))

/-- The per-topic segment range actually chunked by
`chunking.build_chunks_from_topics`: a topic whose range is shorter than
`min_segs` borrows the full ordered segment list. -/
def segsToUse (ordered : List Segment) (min_segs : Nat)
    (tr : Option Topic × List Segment) : List Segment :=
  if tr.2.length ≥ min_segs then tr.2 else ordered

/-- `chunking.build_chunks_from_topics`. -/
def build_chunks_from_topics (topics : List Topic) (segments : List Segment)
    (max_tokens min_segs max_segs overlap : Nat) : List Chunk :=
  if orderedSegments segments = [] then []
  else
    (topic_ranges topics (orderedSegments segments)).flatMap (fun tr =>
      build_topic_chunks tr.1 (segsToUse (orderedSegments segments) min_segs tr)
        max_tokens min_segs max_segs overlap)

/-! ## Ingestion refinement loop (`nodes.py` `card_upserter`/`should_refine`,
`graph.py` `build_ingest_graph`) -/

/-- `schemas.TechCard`. -/
structure TechCard where
  entity_id : Nat
  short_definition : String
  key_points : List String
  comparisons : List String
  recent_summary : String
  deriving Repr, DecidableEq

/-- `schemas.CardResult`: what the Extraction Oracle returns on a
card-synthesis call. -/
structure CardResult where
  cards : List TechCard
  needs_refine : Bool
  deriving Repr, DecidableEq

/-- The slice of `GraphState` that drives the refinement loop, plus trace
counters for oracle calls, `upsert_cards` calls, and `assertion_extractor`
executions. -/
structure IngestState where
  refine_count : Nat
  needs_refine : Bool
  pass_idx : Nat
  cards_persisted : Nat
  assertion_runs : Nat
  deriving Repr, DecidableEq

/-- Initial loop state: `refine_count` and `needs_refine` are absent from the
graph state, so their `state.get` defaults (0 / falsy) apply. -/
def initIngestState : IngestState :=
  { refine_count := 0, needs_refine := false, pass_idx := 0
    cards_persisted := 0, assertion_runs := 0 }

/-- `nodes.card_upserter`, with the Extraction Oracle abstracted as a
function of the card-synthesis call index.  On `needs_refine` the node
returns early (no `upsert_cards` call) and increments the counter; otherwise
it persists the cards and recomputes `needs_refine` from empty
short-definitions. -/
def card_upserter (oracle : Nat → CardResult) (s : IngestState) : IngestState :=
  let result := oracle s.pass_idx
  if result.needs_refine then
    { s with needs_refine := true, refine_count := s.refine_count + 1
             pass_idx := s.pass_idx + 1 }
  else
    { s with cards_persisted := s.cards_persisted + 1
             needs_refine := result.cards.any (fun c => c.short_definition = String.mk [])
             pass_idx := s.pass_idx + 1 }

/-- `nodes.should_refine`: refine iff the flag is set and fewer than 2
refinements are recorded. -/
def should_refine (s : IngestState) : Bool :=
  s.needs_refine && decide (s.refine_count < 2)

/-- The `assertions → cards → {refine | index}` cycle of
`graph.build_ingest_graph`, run with fuel (the Python graph has no static
termination guarantee).  Returns `none` if the fuel runs out, otherwise the
number of times the refine back-edge was taken together with the state
handed to `indexer`. -/
def ingestLoop (oracle : Nat → CardResult) : Nat → IngestState → Option (Nat × IngestState)
  | 0, _ => none
  | fuel + 1, s =>
    let s1 := { s with assertion_runs := s.assertion_runs + 1 }
    let s2 := card_upserter oracle s1
    if should_refine s2 then
      match ingestLoop oracle fuel s2 with
      | some (n, t) => some (n + 1, t)
      | none => none
    else
      some (0, s2)

/-- A full run of the cyclic part of the ingestion pipeline from the state in
which `assertion_extractor` is first entered. -/
def runIngestLoop (oracle : Nat → CardResult) (fuel : Nat) : Option (Nat × IngestState) :=
  ingestLoop oracle fuel initIngestState

/-! ## QA fusion path (`nodes.qa_chain`, `storage.fetch_segment_ids_for_chunk`,
`storage.fetch_segments_by_ids`) -/

/-- Python dict from chunk id to fused score, as an insertion-ordered
association list. -/
abbrev ScoreDict := List (Nat × ℚ)

/-- Dict lookup (`chunk_scores.get(cid)`). -/
def dictLookup (m : ScoreDict) (k : Nat) : Option ℚ :=
  (m.find? (fun p => decide (p.1 = k))).map (fun p => p.2)

/-- Dict assignment (`chunk_scores[cid] = v`): an existing key keeps its
position and gets the new value, a new key is appended at the end (Python
dicts preserve insertion order). -/
def dictSet : ScoreDict → Nat → ℚ → ScoreDict
  | [], k, v => [(k, v)]
  | p :: rest, k, v => if p.1 = k then (k, v) :: rest else p :: dictSet rest k v

/-- One retrieval hit processed by the fusion loop:
`score = 1/(1+distance)`, `chunk_scores[cid] = max(chunk_scores.get(cid, 0.0), score)`. -/
def fuseStep (m : ScoreDict) (r : Nat × ℚ) : ScoreDict :=
  let score : ℚ := 1 / (1 + r.2)
  dictSet m r.1 (max ((dictLookup m r.1).getD 0) score)

/-- The nested per-query/per-result fusion loop of `qa_chain`, over the
per-query retrieval results (chunk id, distance). -/
def chunkScores (results : List (List (Nat × ℚ))) : ScoreDict :=
  results.foldl (fun m qres => qres.foldl fuseStep m) []

/-- `sorted(chunk_scores.keys(), key=lambda cid: chunk_scores[cid],
reverse=True)`: stable descending sort of the keys in insertion order. -/
def rankedChunkIds (m : ScoreDict) : List Nat :=
  stableSort (fun a b => decide ((dictLookup m b).getD 0 < (dictLookup m a).getD 0))
    (m.map (fun p => p.1))

/-- `list(dict.fromkeys(xs))`: deduplicate keeping first occurrences. -/
def pyDictFromKeys (l : List Nat) : List Nat :=
  l.foldl (fun acc x => if x ∈ acc then acc else acc ++ [x]) []

/-- The fused, expanded, deduplicated segment-id sequence of `qa_chain`;
`chunkSegs` is `fetch_segment_ids_for_chunk` (member segment ids of a chunk
in `ord` order, i.e. chunk-definition order). -/
def qaChunkSegmentIds (results : List (List (Nat × ℚ))) (chunkSegs : Nat → List Nat) :
    List Nat :=
  pyDictFromKeys ((rankedChunkIds (chunkScores results)).flatMap chunkSegs)

/-- `storage.fetch_segments_by_ids`: a `SELECT … WHERE id IN (…)` with no
ORDER BY — the rows come back in table order, regardless of the order of the
id list. -/
def fetch_segments_by_ids (table : List Segment) (segment_ids : List Nat) : List Segment :=
  if segment_ids = [] then []
  else
    table.filter (fun s =>
      match s.id with
      | some i => decide (i ∈ segment_ids)
      | none => false)

/-- The `hits` produced by the fusion path of `qa_chain` (before any
fallback). -/
def qaFusionHits (table : List Segment) (results : List (List (Nat × ℚ)))
    (chunkSegs : Nat → List Nat) : List Segment :=
  fetch_segments_by_ids table (qaChunkSegmentIds results chunkSegs)

/-- Python's case-insensitive substring test
`question.lower() in seg.text.lower()`. -/
def pyInStr (needle haystack : String) : Bool :=
  decide ((pyLower needle).data <:+: (pyLower haystack).data)

/-- The fallback ladder of `qa_chain`: `fusion = none` models the `except`
branch (embed/search raised), `some []` an empty fusion result; an empty hit
list falls back to the case-insensitive substring scan, then to the first 3
segments. -/
def qaHits (fusion : Option (List Segment)) (question : String)
    (segments : List Segment) : List Segment :=
  if fusion.getD [] = [] then
    if segments.filter (fun seg => pyInStr question seg.text) = [] then
      segments.take 3
    else
      segments.filter (fun seg => pyInStr question seg.text)
  else fusion.getD []

/-- One citation record built by `qa_chain`. -/
structure Citation where
  segment_id : Option Nat
  speaker : Option String
  timestamp : Option Nat
  youtube_url : Option String
  quote : String
  deriving Repr, DecidableEq

/-- The citation list of `qa_chain`: the first 8 hits, each with a 360-char
bounded quote. -/
def qaCitations (hits : List Segment) : List Citation :=
  (hits.take 8).map (fun seg =>
    { segment_id := seg.id, speaker := seg.speaker, timestamp := seg.t_start_sec
      youtube_url := seg.youtube_url, quote := take_quote seg.text 360 })

/-! ## Assertion post-processing (`nodes.assertion_extractor`) -/

/-- `schemas.Assertion`. -/
structure Assertion where
  episode_id : Nat
  entity_id : Option Nat
  assertion_type : String
  statement : String
  speaker : Option String
  confidence : ℚ
  verify_priority : Int
  segment_ids : List Nat
  evidence_quote : String
  deriving Repr, DecidableEq

/-- `seg_lookup.get(k)` for the dict comprehension
`{seg.id: seg for seg in segments if seg.id is not None}`: a later segment
with the same id overrides an earlier one. -/
def segLookupGet (segments : List Segment) (k : Nat) : Option Segment :=
  segments.foldl (fun acc s => if s.id = some k then some s else acc) none

/-- `sid in seg_lookup`: key membership in the same dict. -/
def segLookupContains (segments : List Segment) (k : Nat) : Bool :=
  segments.any (fun s => s.id = some k)

/-- The per-assertion body of the loop in `assertion_extractor`: pin the
episode id, drop segment ids absent from the lookup, skip the assertion if
none survive, and replace a missing or over-240-character evidence quote by a
bounded quote from the first kept segment (falling back to the statement if
the lookup misses). -/
def processAssertion (episode_id : Nat) (segments : List Segment) (a : Assertion) :
    Option Assertion :=
  let ids := a.segment_ids.filter (fun sid => segLookupContains segments sid)
  match ids with
  | [] => none
  | sid :: rest =>
    let quote0 := a.evidence_quote
    let quote :=
      if quote0 = String.mk [] ∨ quote0.length > 240 then
        match segLookupGet segments sid with
        | some s => take_quote s.text 240
        | none => take_quote a.statement 240
      else quote0
    some { a with episode_id := episode_id, segment_ids := sid :: rest
                  evidence_quote := quote }

/-- The whole post-processing loop of `assertion_extractor` over the
Oracle's assertion list (assertions are processed and kept in order). -/
def assertion_postprocess (episode_id : Nat) (segments : List Segment)
    (asserts : List Assertion) : List Assertion :=
  asserts.filterMap (processAssertion episode_id segments)

/-! ## Entity upsertion (`storage.upsert_entities`) -/

/-- A row of the `entities` table. -/
structure EntityRow where
  type : String
  canonical_name : String
  aliases : List String
  first_seen_episode_id : Nat
  last_seen_episode_id : Nat
  deriving Repr, DecidableEq

/-- An extracted entity as handed to `upsert_entities`. -/
structure EntityIn where
  type : String
  canonical_name : String
  aliases : List String
  deriving Repr, DecidableEq

/-- Python's `sorted(set(xs))` on strings. -/
def sortedSet (l : List String) : List String :=
  stableSort (fun a b => decide (a < b)) l.dedup

/-- One iteration of the loop in `upsert_entities`: normalize the canonical
name; if a row with that name exists, bump `last_seen` and union the aliases
(sorted set), otherwise insert a fresh row. -/
def upsertEntityStep (episode_id : Nat) (table : List EntityRow) (ent : EntityIn) :
    List EntityRow :=
  if table.any (fun r => r.canonical_name = normalize_name ent.canonical_name) then
    table.map (fun r =>
      if r.canonical_name = normalize_name ent.canonical_name then
        { r with last_seen_episode_id := episode_id
                 aliases := sortedSet (r.aliases ++ ent.aliases) }
      else r)
  else
    table ++ [{ type := ent.type, canonical_name := normalize_name ent.canonical_name
                aliases := ent.aliases
                first_seen_episode_id := episode_id
                last_seen_episode_id := episode_id }]

/-- `storage.upsert_entities` over the whole extracted entity list. -/
def upsert_entities (table : List EntityRow) (episode_id : Nat) (ents : List EntityIn) :
    List EntityRow :=
  ents.foldl (upsertEntityStep episode_id) table
/-! ## Spec-side formulation of the fusion ranking (for refinement
comparison against `qa_chain`) -/

/-- The maximum of a list of rationals (`none` on the empty list). -/
def listMax? : List ℚ → Option ℚ
  | [] => none
  | x :: xs => some (xs.foldl max x)

/-- Following the spec: the similarity scores `1/(1+distance)` that the
queries award a given chunk id, in retrieval order. -/
def specChunkScores (results : List (List (Nat × ℚ))) (cid : Nat) : List ℚ :=
  ((results.flatten).filter (fun p => p.1 = cid)).map (fun p => 1 / (1 + p.2))

/-- Following the spec: the fused score of a chunk id is the maximum
similarity any query achieved for it. -/
def specScore (results : List (List (Nat × ℚ))) (cid : Nat) : ℚ :=
  (listMax? (specChunkScores results cid)).getD 0

/-- Following the spec: chunk ids in the order they were first encountered
across the per-query result lists. -/
def specFirstEncounter (results : List (List (Nat × ℚ))) : List Nat :=
  pyDictFromKeys ((results.flatten).map (fun p => p.1))

/-- Following the spec: rank fused chunk ids by descending max score, ties
kept in first-encounter order (stable sort). -/
def specRankedChunkIds (results : List (List (Nat × ℚ))) : List Nat :=
  stableSort (fun a b => decide (specScore results b < specScore results a))
    (specFirstEncounter results)

/-- Following the spec: expand each ranked chunk to its member-segment ids in
chunk-definition order, concatenate, and deduplicate keeping first
occurrences. -/
def specFusionSegmentIds (results : List (List (Nat × ℚ))) (chunkSegs : Nat → List Nat) :
    List Nat :=
  pyDictFromKeys ((specRankedChunkIds results).flatMap chunkSegs)

theorem ingestLoop_alwaysRefine_run (oracle : Nat → CardResult)
    (h : ∀ n, (oracle n).needs_refine = true) (f : Nat) :
    ingestLoop oracle (f + 2) initIngestState =
      some (1, { refine_count := 2, needs_refine := true, pass_idx := 2
                 cards_persisted := 0, assertion_runs := 2 }) := by
  simp [ingestLoop, card_upserter, should_refine, initIngestState, h]

/-- C1 (counterexample): for the Oracle that signals `needs_refine` on every
card-synthesis call, the pipeline terminates but the refine edge back to
`assertion_extractor` is taken exactly once, not twice: `should_refine`
increments `refine_count` on the flagged pass itself, so the counter reaches
its cap of 2 after a single traversal of the back edge. -/
theorem refine_edge_not_taken_twice :
    (runIngestLoop (fun _ => { cards := [], needs_refine := true }) 10).map Prod.fst
        = some 1 ∧
      ¬ (runIngestLoop (fun _ => { cards := [], needs_refine := true }) 10).map Prod.fst
        = some 2 := by
  constructor
  · rfl
  · intro hcontra
    simp only [show (10 : Nat) = 8 + 2 from rfl,
      ingestLoop_alwaysRefine_run (fun _ => { cards := [], needs_refine := true })
        (fun _ => rfl) 8, runIngestLoop] at hcontra
    exact absurd hcontra (by decide)

/-- C1 (amended): for every Oracle that signals `needs_refine = true` on every
card-synthesis call, and any fuel of at least 2 loop iterations, the
ingestion loop terminates and hands control to `indexer` after taking the
refine back edge exactly 1 time, with the refinement counter at its cap 2. -/
theorem refine_loop_terminates_after_one_refinement (oracle : Nat → CardResult)
    (h : ∀ n, (oracle n).needs_refine = true) (fuel : Nat) (hf : 2 ≤ fuel) :
    ∃ t : IngestState, runIngestLoop oracle fuel = some (1, t) ∧ t.refine_count = 2 := by
  obtain ⟨f, rfl⟩ : ∃ f, fuel = f + 2 := ⟨fuel - 2, by omega⟩
  exact ⟨_, ingestLoop_alwaysRefine_run oracle h f, rfl⟩

/-- C1 (witness). -/
theorem refine_loop_terminates_after_one_refinement_witness :
    ∃ t : IngestState,
      runIngestLoop (fun _ => { cards := [], needs_refine := true }) 5 = some (1, t) ∧
        t.refine_count = 2 :=
  refine_loop_terminates_after_one_refinement
    (fun _ => { cards := [], needs_refine := true }) (fun _ => rfl) 5 (by decide)

/-- C10: on any pass where the Oracle's card result signals `needs_refine`,
`card_upserter` returns without calling `upsert_cards` (the persisted-card
counter is unchanged); consequently, for an Oracle that always signals
`needs_refine`, the run reaches the indexer and terminates without ever
persisting a Card. -/
theorem card_upserter_refine_frame :
    (∀ (oracle : Nat → CardResult) (s : IngestState),
        (oracle s.pass_idx).needs_refine = true →
        (card_upserter oracle s).cards_persisted = s.cards_persisted) ∧
    (∀ (oracle : Nat → CardResult) (fuel : Nat),
        (∀ n, (oracle n).needs_refine = true) → 2 ≤ fuel →
        ∃ t : IngestState, runIngestLoop oracle fuel = some (1, t) ∧
          t.cards_persisted = 0) := by
  constructor
  · intro oracle s h
    simp [card_upserter, h]
  · intro oracle fuel h hf
    obtain ⟨f, rfl⟩ : ∃ f, fuel = f + 2 := ⟨fuel - 2, by omega⟩
    exact ⟨_, ingestLoop_alwaysRefine_run oracle h f, rfl⟩

/-- C10 (witness). -/
theorem card_upserter_refine_frame_witness :
    (card_upserter (fun _ => { cards := [], needs_refine := true })
        initIngestState).cards_persisted = initIngestState.cards_persisted ∧
      ∃ t : IngestState,
        runIngestLoop (fun _ => { cards := [], needs_refine := true }) 4 = some (1, t) ∧
          t.cards_persisted = 0 :=
  ⟨card_upserter_refine_frame.1 _ initIngestState rfl,
   card_upserter_refine_frame.2 _ 4 (fun _ => rfl) (by decide)⟩

theorem length_dropWhile_le (p : Char → Bool) (m : List Char) :
    (m.dropWhile p).length ≤ m.length := by
  induction m with
  | nil => simp [List.dropWhile]
  | cons c cs ih =>
    simp only [List.dropWhile_cons]
    split
    · exact Nat.le_trans ih (by simp)
    · simp

theorem rstripChars_length_le (l : List Char) : (rstripChars l).length ≤ l.length := by
  simpa [rstripChars] using
    Nat.le_trans (length_dropWhile_le (fun d => d.isWhitespace) l.reverse) (by simp)

theorem take_quote_length_le (text : String) (limit : Nat) (h3 : 3 ≤ limit) :
    (take_quote text limit).length ≤ limit := by
  by_cases hle : (compact_spaces text).data.length ≤ limit
  · unfold take_quote
    simp only [hle, if_true]
    exact hle
  · unfold take_quote
    simp only [hle, if_false]
    show (rstripChars ((compact_spaces text).data.take (limit - 3))
        ++ [ '.', '.', '.' ]).length ≤ limit
    rw [List.length_append]
    have h1 := rstripChars_length_le ((compact_spaces text).data.take (limit - 3))
    have h2 : ((compact_spaces text).data.take (limit - 3)).length ≤ limit - 3 := by
      simpa using List.length_take_le _ _
    simp only [List.length_cons, List.length_nil]
    omega

/-- C7: every assertion that survives post-processing in
`assertion_extractor` (and hence reaches `upsert_assertions`) keeps only
segment ids present in the current segment lookup, keeps at least one, and
carries an evidence quote of at most 240 characters (a missing or over-long
quote having been replaced by a 240-bounded quote). -/
theorem assertion_postprocess_evidence_bound (episode_id : Nat)
    (segments : List Segment) (asserts : List Assertion) :
    ∀ a ∈ assertion_postprocess episode_id segments asserts,
      a.evidence_quote.length ≤ 240 ∧ a.segment_ids ≠ [] ∧
        ∀ sid ∈ a.segment_ids, segLookupContains segments sid = true := by
  intro a ha
  rw [assertion_postprocess, List.mem_filterMap] at ha
  obtain ⟨a0, _, hp⟩ := ha
  unfold processAssertion at hp
  rcases hfl : a0.segment_ids.filter (fun sid => segLookupContains segments sid) with
    _ | ⟨sid, rest⟩
  · rw [hfl] at hp
    simp at hp
  · rw [hfl] at hp
    simp only [Option.some.injEq] at hp
    subst hp
    refine ⟨?_, by simp, ?_⟩
    · simp only
      split
      · split
        · exact take_quote_length_le _ 240 (by omega)
        · exact take_quote_length_le _ 240 (by omega)
      · rename_i hcond
        push_neg at hcond
        omega
    · intro sid' hsid'
      simp only at hsid'
      have hmem : sid' ∈ a0.segment_ids.filter
          (fun sid => segLookupContains segments sid) := by
        rw [hfl]; exact hsid'
      exact (List.mem_filter.mp hmem).2

theorem segLookup_foldl_isSome (k : Nat) (l : List Segment) (acc : Option Segment)
    (h : acc.isSome = true) :
    (l.foldl (fun a x => if x.id = some k then some x else a) acc).isSome = true := by
  induction l generalizing acc with
  | nil => exact h
  | cons x rest ih =>
    simp only [List.foldl_cons]
    apply ih
    split
    · rfl
    · exact h

theorem segLookup_foldl_isSome_of_mem (k : Nat) (s : Segment) (l : List Segment)
    (hs : s ∈ l) (hid : s.id = some k) (acc : Option Segment) :
    (l.foldl (fun a x => if x.id = some k then some x else a) acc).isSome = true := by
  induction l generalizing acc with
  | nil => simp at hs
  | cons x rest ih =>
    simp only [List.foldl_cons]
    rcases List.mem_cons.mp hs with rfl | hmem
    · apply segLookup_foldl_isSome
      rw [if_pos hid]
      rfl
    · exact ih hmem _

theorem segLookup_foldl_eq_some (k : Nat) (l : List Segment) :
    ∀ (acc : Option Segment) (s : Segment),
      l.foldl (fun a x => if x.id = some k then some x else a) acc = some s →
      acc = some s ∨ (s ∈ l ∧ s.id = some k) := by
  induction l with
  | nil => exact fun acc s h => Or.inl h
  | cons x rest ih =>
    intro acc s h
    simp only [List.foldl_cons] at h
    rcases ih _ s h with hacc | ⟨hm, hid⟩
    · by_cases hx : x.id = some k
      · rw [if_pos hx] at hacc
        exact Or.inr ⟨by rw [Option.some.injEq] at hacc; rw [← hacc]; exact List.mem_cons_self x rest,
          by rw [Option.some.injEq] at hacc; rw [← hacc]; exact hx⟩
      · rw [if_neg hx] at hacc
        exact Or.inl hacc
    · exact Or.inr ⟨List.mem_cons_of_mem _ hm, hid⟩

theorem segLookupGet_isSome_of_contains (segments : List Segment) (k : Nat)
    (h : segLookupContains segments k = true) :
    (segLookupGet segments k).isSome = true := by
  unfold segLookupContains at h
  rw [List.any_eq_true] at h
  obtain ⟨s, hs, hid⟩ := h
  exact segLookup_foldl_isSome_of_mem k s segments hs (by simpa using hid) none

/-- C9: once an assertion's segment ids have been filtered to the current
lookup and the empty case discarded, the lookup of its first segment id
always succeeds: the fallback to quoting the assertion's own statement is
unreachable, and every replaced evidence quote is the 240-bounded quote of
the first referenced segment's text. -/
theorem assertion_first_segment_lookup_total (episode_id : Nat)
    (segments : List Segment) (a a' : Assertion)
    (hp : processAssertion episode_id segments a = some a') :
    ∃ s : Segment, s ∈ segments ∧ s.id = some (a'.segment_ids.headD 0) ∧
      segLookupGet segments (a'.segment_ids.headD 0) = some s ∧
      ((a.evidence_quote = String.mk [] ∨ a.evidence_quote.length > 240) →
        a'.evidence_quote = take_quote s.text 240) := by
  unfold processAssertion at hp
  rcases hfl : a.segment_ids.filter (fun sid => segLookupContains segments sid) with
    _ | ⟨sid, rest⟩
  · rw [hfl] at hp
    simp at hp
  · rw [hfl] at hp
    simp only [Option.some.injEq] at hp
    subst hp
    simp only [List.headD_cons]
    have hsidmem : sid ∈ a.segment_ids.filter (fun sid => segLookupContains segments sid) := by
      rw [hfl]
      exact List.mem_cons_self _ _
    have hcont : segLookupContains segments sid = true := (List.mem_filter.mp hsidmem).2
    obtain ⟨w, hw⟩ := Option.isSome_iff_exists.mp (segLookupGet_isSome_of_contains segments sid hcont)
    have hmem := segLookup_foldl_eq_some sid segments none w hw
    rcases hmem with hbad | ⟨hwmem, hwid⟩
    · exact absurd hbad (by simp)
    · refine ⟨w, hwmem, hwid, hw, ?_⟩
      intro hq
      simp only [if_pos hq]
      rw [hw]

/-- C7 (witness). -/
theorem assertion_postprocess_evidence_bound_witness :
    ({ episode_id := 1, entity_id := none, assertion_type := "fact",
       statement := "stmt", speaker := none, confidence := 0,
       verify_priority := 0, segment_ids := [7], evidence_quote := "hello world"
       : Assertion }).evidence_quote.length ≤ 240 ∧
      ({ episode_id := 1, entity_id := none, assertion_type := "fact",
         statement := "stmt", speaker := none, confidence := 0,
         verify_priority := 0, segment_ids := [7], evidence_quote := "hello world"
         : Assertion }).segment_ids ≠ [] ∧
      ∀ sid ∈ ({ episode_id := 1, entity_id := none, assertion_type := "fact",
                 statement := "stmt", speaker := none, confidence := 0,
                 verify_priority := 0, segment_ids := [7], evidence_quote := "hello world"
                 : Assertion }).segment_ids,
        segLookupContains
          [{ id := some 7, speaker := none, t_start_sec := none, t_end_sec := none,
             youtube_url := none, text := "hello world" }] sid = true :=
  assertion_postprocess_evidence_bound 1
    [{ id := some 7, speaker := none, t_start_sec := none, t_end_sec := none,
       youtube_url := none, text := "hello world" }]
    [{ episode_id := 0, entity_id := none, assertion_type := "fact",
       statement := "stmt", speaker := none, confidence := 0,
       verify_priority := 0, segment_ids := [7, 9], evidence_quote := "" }]
    _ (by decide)

/-- C9 (witness). -/
theorem assertion_first_segment_lookup_total_witness :
    ∃ s : Segment,
      s ∈ [{ id := some 7, speaker := none, t_start_sec := none, t_end_sec := none,
             youtube_url := none, text := "hello world" : Segment }] ∧
      s.id = some (({ episode_id := 1, entity_id := none, assertion_type := "fact",
                      statement := "stmt", speaker := none, confidence := 0,
                      verify_priority := 0, segment_ids := [7],
                      evidence_quote := "hello world" : Assertion }).segment_ids.headD 0) ∧
      segLookupGet
          [{ id := some 7, speaker := none, t_start_sec := none, t_end_sec := none,
             youtube_url := none, text := "hello world" }]
          (({ episode_id := 1, entity_id := none, assertion_type := "fact",
              statement := "stmt", speaker := none, confidence := 0,
              verify_priority := 0, segment_ids := [7],
              evidence_quote := "hello world" : Assertion }).segment_ids.headD 0) = some s ∧
      ((({ episode_id := 0, entity_id := none, assertion_type := "fact",
           statement := "stmt", speaker := none, confidence := 0,
           verify_priority := 0, segment_ids := [7, 9],
           evidence_quote := "" : Assertion }).evidence_quote = String.mk [] ∨
        (({ episode_id := 0, entity_id := none, assertion_type := "fact",
            statement := "stmt", speaker := none, confidence := 0,
            verify_priority := 0, segment_ids := [7, 9],
            evidence_quote := "" : Assertion }).evidence_quote.length > 240)) →
        (({ episode_id := 1, entity_id := none, assertion_type := "fact",
            statement := "stmt", speaker := none, confidence := 0,
            verify_priority := 0, segment_ids := [7],
            evidence_quote := "hello world" : Assertion }).evidence_quote
          = take_quote s.text 240)) :=
  assertion_first_segment_lookup_total 1
    [{ id := some 7, speaker := none, t_start_sec := none, t_end_sec := none,
       youtube_url := none, text := "hello world" }]
    { episode_id := 0, entity_id := none, assertion_type := "fact",
      statement := "stmt", speaker := none, confidence := 0,
      verify_priority := 0, segment_ids := [7, 9], evidence_quote := "" }
    _ (by decide)

theorem mem_stableInsert {α : Type} (gb : α → α → Bool) (x a : α) (l : List α) :
    a ∈ stableInsert gb x l ↔ a = x ∨ a ∈ l := by
  induction l with
  | nil => simp [stableInsert]
  | cons y ys ih =>
    simp only [stableInsert]
    split
    · simp [List.mem_cons]
    · simp only [List.mem_cons, ih]
      tauto

theorem mem_stableSort {α : Type} (gb : α → α → Bool) (l : List α) (a : α) :
    a ∈ stableSort gb l ↔ a ∈ l := by
  have key : ∀ (m acc : List α),
      a ∈ m.foldl (fun acc x => stableInsert gb x acc) acc ↔ a ∈ acc ∨ a ∈ m := by
    intro m
    induction m with
    | nil => simp
    | cons y ys ih =>
      intro acc
      simp only [List.foldl_cons, ih, mem_stableInsert, List.mem_cons]
      tauto
  simp [stableSort, key]

theorem mem_sortedSet (l : List String) (a : String) : a ∈ sortedSet l ↔ a ∈ l := by
  simp [sortedSet, mem_stableSort, List.mem_dedup]

theorem upsertEntityStep_mono (eid : Nat) (tbl : List EntityRow) (ent : EntityIn)
    (r : EntityRow) (hr : r ∈ tbl) :
    ∃ r' ∈ upsertEntityStep eid tbl ent,
      r'.canonical_name = r.canonical_name ∧ ∀ a ∈ r.aliases, a ∈ r'.aliases := by
  unfold upsertEntityStep
  split
  · refine ⟨if r.canonical_name = normalize_name ent.canonical_name then
      { r with last_seen_episode_id := eid,
               aliases := sortedSet (r.aliases ++ ent.aliases) } else r, ?_, ?_, ?_⟩
    · have := List.mem_map_of_mem (fun x =>
        if x.canonical_name = normalize_name ent.canonical_name then
          { x with last_seen_episode_id := eid,
                   aliases := sortedSet (x.aliases ++ ent.aliases) } else x) hr
      exact this
    · split <;> rfl
    · split
      · intro a ha
        exact (mem_sortedSet _ _).mpr (List.mem_append_left _ ha)
      · exact fun a ha => ha
  · exact ⟨r, List.mem_append_left _ hr, rfl, fun a ha => ha⟩

theorem upsert_entities_fold_mono (eid : Nat) (es : List EntityIn) :
    ∀ (tbl : List EntityRow) (r : EntityRow), r ∈ tbl →
      ∃ r' ∈ es.foldl (upsertEntityStep eid) tbl,
        r'.canonical_name = r.canonical_name ∧ ∀ a ∈ r.aliases, a ∈ r'.aliases := by
  induction es with
  | nil => exact fun tbl r hr => ⟨r, hr, rfl, fun a ha => ha⟩
  | cons e es ih =>
    intro tbl r hr
    obtain ⟨r1, hr1, hc1, ha1⟩ := upsertEntityStep_mono eid tbl e r hr
    obtain ⟨r', hr', hc', ha'⟩ := ih (upsertEntityStep eid tbl e) r1 hr1
    exact ⟨r', hr', hc'.trans hc1, fun a ha => ha' a (ha1 a ha)⟩

theorem upsertEntityStep_sets (eid : Nat) (tbl : List EntityRow) (ent : EntityIn)
    (hany : (tbl.any fun r => r.canonical_name = normalize_name ent.canonical_name) = true) :
    ∀ r' ∈ upsertEntityStep eid tbl ent,
      r'.canonical_name = normalize_name ent.canonical_name →
      r'.last_seen_episode_id = eid ∧ ∀ a ∈ ent.aliases, a ∈ r'.aliases := by
  intro r' hr' hc'
  unfold upsertEntityStep at hr'
  rw [if_pos hany] at hr'
  obtain ⟨r0, hr0, hf⟩ := List.mem_map.mp hr'
  by_cases hc0 : r0.canonical_name = normalize_name ent.canonical_name
  · rw [if_pos hc0] at hf
    subst hf
    exact ⟨rfl, fun a ha => (mem_sortedSet _ _).mpr (List.mem_append_right _ ha)⟩
  · rw [if_neg hc0] at hf
    subst hf
    exact absurd hc' hc0

theorem upsertEntityStep_pres (eid : Nat) (c : String) (al : List String)
    (tbl : List EntityRow) (ent : EntityIn)
    (hex : ∃ r ∈ tbl, r.canonical_name = c)
    (hall : ∀ r ∈ tbl, r.canonical_name = c →
      r.last_seen_episode_id = eid ∧ ∀ a ∈ al, a ∈ r.aliases) :
    (∃ r ∈ upsertEntityStep eid tbl ent, r.canonical_name = c) ∧
    (∀ r ∈ upsertEntityStep eid tbl ent, r.canonical_name = c →
      r.last_seen_episode_id = eid ∧ ∀ a ∈ al, a ∈ r.aliases) := by
  constructor
  · obtain ⟨r, hr, hc⟩ := hex
    obtain ⟨r', hr', hc', _⟩ := upsertEntityStep_mono eid tbl ent r hr
    exact ⟨r', hr', hc'.trans hc⟩
  · intro r' hr' hc'
    unfold upsertEntityStep at hr'
    split at hr'
    · obtain ⟨r0, hr0, hf⟩ := List.mem_map.mp hr'
      by_cases hc0 : r0.canonical_name = normalize_name ent.canonical_name
      · rw [if_pos hc0] at hf
        subst hf
        obtain ⟨_, hal⟩ := hall r0 hr0 (by simpa using hc')
        exact ⟨rfl, fun a ha => (mem_sortedSet _ _).mpr (List.mem_append_left _ (hal a ha))⟩
      · rw [if_neg hc0] at hf
        subst hf
        exact hall r0 hr0 hc'
    · rename_i hany
      rcases List.mem_append.mp hr' with hin | hnew
      · exact hall r' hin hc'
      · exfalso
        simp only [List.mem_singleton] at hnew
        subst hnew
        simp only at hc'
        obtain ⟨r, hr, hc⟩ := hex
        rw [← hc'] at hc
        exact hany (List.any_eq_true.mpr ⟨r, hr, by simpa using hc⟩)

theorem upsert_entities_fold_pres (eid : Nat) (c : String) (al : List String)
    (es : List EntityIn) :
    ∀ (tbl : List EntityRow),
      (∃ r ∈ tbl, r.canonical_name = c) →
      (∀ r ∈ tbl, r.canonical_name = c →
        r.last_seen_episode_id = eid ∧ ∀ a ∈ al, a ∈ r.aliases) →
      ∀ r ∈ es.foldl (upsertEntityStep eid) tbl, r.canonical_name = c →
        r.last_seen_episode_id = eid ∧ ∀ a ∈ al, a ∈ r.aliases := by
  induction es with
  | nil => exact fun tbl _ hall => hall
  | cons e es ih =>
    intro tbl hex hall
    obtain ⟨hex', hall'⟩ := upsertEntityStep_pres eid c al tbl e hex hall
    exact ih _ hex' hall'

theorem upsertEntityStep_nodup (eid : Nat) (tbl : List EntityRow) (ent : EntityIn)
    (h : (tbl.map (fun r => r.canonical_name)).Nodup) :
    ((upsertEntityStep eid tbl ent).map (fun r => r.canonical_name)).Nodup := by
  unfold upsertEntityStep
  split
  · rw [List.map_map]
    have : ((fun r : EntityRow => r.canonical_name) ∘ (fun r =>
        if r.canonical_name = normalize_name ent.canonical_name then
          { r with last_seen_episode_id := eid,
                   aliases := sortedSet (r.aliases ++ ent.aliases) }
        else r)) = fun r : EntityRow => r.canonical_name := by
      funext r
      by_cases hc : r.canonical_name = normalize_name ent.canonical_name <;>
        simp [Function.comp, hc]
    rw [this]
    exact h
  · rename_i hany
    rw [List.map_append]
    simp only [List.map_cons, List.map_nil]
    rw [List.nodup_append]
    refine ⟨h, List.nodup_singleton _, ?_⟩
    intro a ha hb
    simp only [List.mem_singleton] at hb
    subst hb
    obtain ⟨r, hr, hc⟩ := List.mem_map.mp ha
    exact hany (List.any_eq_true.mpr ⟨r, hr, by simpa using hc⟩)

theorem upsert_entities_fold_nodup (eid : Nat) (es : List EntityIn) :
    ∀ (tbl : List EntityRow), (tbl.map (fun r => r.canonical_name)).Nodup →
      ((es.foldl (upsertEntityStep eid) tbl).map (fun r => r.canonical_name)).Nodup := by
  induction es with
  | nil => exact fun tbl h => h
  | cons e es ih => exact fun tbl h => ih _ (upsertEntityStep_nodup eid tbl e h)

/-- C8: `upsert_entities` is monotone on alias sets.  For every stored row,
the result still holds a row with the same canonical name whose alias set
contains the old one (aliases never shrink); for every extracted entity whose
normalized canonical name already exists, the (unique) row of that name ends
with `last_seen_episode_id` set to the current episode and with the new
aliases unioned in; and the canonical names of the resulting table remain
pairwise distinct — no second row for an existing name. -/
theorem upsert_entities_alias_monotone (table : List EntityRow) (eid : Nat)
    (ents : List EntityIn)
    (hnodup : (table.map (fun r => r.canonical_name)).Nodup) :
    (∀ r ∈ table, ∃ r' ∈ upsert_entities table eid ents,
        r'.canonical_name = r.canonical_name ∧ ∀ a ∈ r.aliases, a ∈ r'.aliases) ∧
    (∀ ent ∈ ents,
        (∃ r ∈ table, r.canonical_name = normalize_name ent.canonical_name) →
        ∀ r' ∈ upsert_entities table eid ents,
          r'.canonical_name = normalize_name ent.canonical_name →
          r'.last_seen_episode_id = eid ∧ ∀ a ∈ ent.aliases, a ∈ r'.aliases) ∧
    ((upsert_entities table eid ents).map (fun r => r.canonical_name)).Nodup := by
  refine ⟨fun r hr => upsert_entities_fold_mono eid ents table r hr, ?_,
    upsert_entities_fold_nodup eid ents table hnodup⟩
  intro ent hent hex
  clear hnodup
  induction ents generalizing table with
  | nil => simp at hent
  | cons e es ih =>
    rcases List.mem_cons.mp hent with rfl | htail
    · have hany : (table.any fun r =>
          r.canonical_name = normalize_name ent.canonical_name) = true := by
        obtain ⟨r, hr, hc⟩ := hex
        exact List.any_eq_true.mpr ⟨r, hr, by simpa using hc⟩
      have hset := upsertEntityStep_sets eid table ent hany
      have hex' : ∃ r ∈ upsertEntityStep eid table ent,
          r.canonical_name = normalize_name ent.canonical_name := by
        obtain ⟨r, hr, hc⟩ := hex
        obtain ⟨r', hr', hc', _⟩ := upsertEntityStep_mono eid table ent r hr
        exact ⟨r', hr', hc'.trans hc⟩
      exact upsert_entities_fold_pres eid (normalize_name ent.canonical_name)
        ent.aliases es _ hex' hset
    · have hex' : ∃ r ∈ upsertEntityStep eid table e,
          r.canonical_name = normalize_name ent.canonical_name := by
        obtain ⟨r, hr, hc⟩ := hex
        obtain ⟨r', hr', hc', _⟩ := upsertEntityStep_mono eid table e r hr
        exact ⟨r', hr', hc'.trans hc⟩
      exact ih _ htail hex'

/-- C8 (witness). -/
theorem upsert_entities_alias_monotone_witness :
    (∀ r ∈ [{ type := "framework", canonical_name := "python", aliases := ["py"],
              first_seen_episode_id := 1, last_seen_episode_id := 1 : EntityRow }],
      ∃ r' ∈ upsert_entities
          [{ type := "framework", canonical_name := "python", aliases := ["py"],
             first_seen_episode_id := 1, last_seen_episode_id := 1 }] 2
          [{ type := "framework", canonical_name := " Python ", aliases := ["python3"] }],
        r'.canonical_name = r.canonical_name ∧ ∀ a ∈ r.aliases, a ∈ r'.aliases) ∧
    (∀ ent ∈ [{ type := "framework", canonical_name := " Python ",
                aliases := ["python3"] : EntityIn }],
      (∃ r ∈ [{ type := "framework", canonical_name := "python", aliases := ["py"],
                first_seen_episode_id := 1, last_seen_episode_id := 1 : EntityRow }],
        r.canonical_name = normalize_name ent.canonical_name) →
      ∀ r' ∈ upsert_entities
          [{ type := "framework", canonical_name := "python", aliases := ["py"],
             first_seen_episode_id := 1, last_seen_episode_id := 1 }] 2
          [{ type := "framework", canonical_name := " Python ", aliases := ["python3"] }],
        r'.canonical_name = normalize_name ent.canonical_name →
        r'.last_seen_episode_id = 2 ∧ ∀ a ∈ ent.aliases, a ∈ r'.aliases) ∧
    ((upsert_entities
        [{ type := "framework", canonical_name := "python", aliases := ["py"],
           first_seen_episode_id := 1, last_seen_episode_id := 1 }] 2
        [{ type := "framework", canonical_name := " Python ", aliases := ["python3"] }]).map
      (fun r => r.canonical_name)).Nodup :=
  upsert_entities_alias_monotone
    [{ type := "framework", canonical_name := "python", aliases := ["py"],
       first_seen_episode_id := 1, last_seen_episode_id := 1 }] 2
    [{ type := "framework", canonical_name := " Python ", aliases := ["python3"] }]
    (by decide)

theorem trimWindowAux_spec (topic : Option Topic) (mt ms : Nat) :
    ∀ (fuel : Nat) (w : List Segment), w.length ≤ fuel →
      (trimWindowAux topic mt ms fuel w).2 =
          build_chunk_text topic (trimWindowAux topic mt ms fuel w).1 ∧
        (trimWindowAux topic mt ms fuel w).1 <+: w ∧
        (estimate_tokens (trimWindowAux topic mt ms fuel w).2 ≤ mt ∨
          (trimWindowAux topic mt ms fuel w).1.length ≤ ms) ∧
        (ms ≤ w.length → ms ≤ (trimWindowAux topic mt ms fuel w).1.length) := by
  intro fuel
  induction fuel with
  | zero =>
    intro w hw
    have hnil : w = [] := List.eq_nil_of_length_eq_zero (by omega)
    subst hnil
    simp only [trimWindowAux]
    exact ⟨trivial, List.prefix_refl _, Or.inr (by simp), fun h => by simpa using h⟩
  | succ fuel ih =>
    intro w hw
    by_cases hcond : estimate_tokens (build_chunk_text topic w) > mt ∧ w.length > ms
    · simp only [trimWindowAux, if_pos hcond]
      obtain ⟨ih1, ih2, ih3, ih4⟩ := ih w.dropLast
        (by simp only [List.length_dropLast]; omega)
      exact ⟨ih1, ih2.trans (List.dropLast_prefix w), ih3,
        fun hms => ih4 (by simp only [List.length_dropLast]; omega)⟩
    · simp only [trimWindowAux, if_neg hcond]
      rw [Classical.not_and_iff_or_not_not] at hcond
      refine ⟨trivial, List.prefix_refl w, ?_, fun h => h⟩
      rcases hcond with h | h
      · exact Or.inl (by omega)
      · exact Or.inr (by omega)

theorem trimWindow_spec (topic : Option Topic) (mt ms : Nat) (w : List Segment) :
    (trimWindow topic mt ms w).2 = build_chunk_text topic (trimWindow topic mt ms w).1 ∧
    (trimWindow topic mt ms w).1 <+: w ∧
    (estimate_tokens (trimWindow topic mt ms w).2 ≤ mt ∨
      (trimWindow topic mt ms w).1.length ≤ ms) ∧
    (ms ≤ w.length → ms ≤ (trimWindow topic mt ms w).1.length) :=
  trimWindowAux_spec topic mt ms w.length w le_rfl

theorem filterMap_id_length (w : List Segment) (h : ∀ s ∈ w, s.id.isSome = true) :
    (w.filterMap (fun s => s.id)).length = w.length := by
  induction w with
  | nil => simp
  | cons s ws ih =>
    have hs := h s (List.mem_cons_self s ws)
    obtain ⟨i, hi⟩ := Option.isSome_iff_exists.mp hs
    simp [List.filterMap_cons, hi, ih (fun x hx => h x (List.mem_cons_of_mem _ hx))]

theorem buildWindowsAux_budget (topic : Option Topic) (segments : List Segment)
    (mt ms mx ov : Nat) (hids : ∀ s ∈ segments, s.id.isSome = true) :
    ∀ (fuel idx : Nat), ∀ c ∈ buildWindowsAux topic segments mt ms mx ov fuel idx,
      ms ≤ c.segment_ids.length ∧
      (estimate_tokens c.chunk_text ≤ mt ∨ c.segment_ids.length = ms) := by
  intro fuel
  induction fuel with
  | zero =>
    intro idx c hc
    simp [buildWindowsAux] at hc
  | succ fuel ih =>
    intro idx c hc
    simp only [buildWindowsAux] at hc
    by_cases h1 : idx < segments.length
    case neg => rw [if_neg h1] at hc; simp at hc
    rw [if_pos h1] at hc
    by_cases h2 : ((segments.drop idx).take mx).length < ms
    case pos => rw [if_pos h2] at hc; simp at hc
    rw [if_neg h2] at hc
    by_cases h3 : (trimWindow topic mt ms ((segments.drop idx).take mx)).1.length < ms
    case pos => rw [if_pos h3] at hc; simp at hc
    rw [if_neg h3] at hc
    rcases List.mem_cons.mp hc with rfl | htail
    · have hsub : ∀ s ∈ (trimWindow topic mt ms
          ((segments.drop idx).take mx)).1, s.id.isSome = true := by
        intro s hs
        have hpre := (trimWindow_spec topic mt ms ((segments.drop idx).take mx)).2.1
        have hmem : s ∈ (segments.drop idx).take mx := hpre.mem hs
        exact hids s (List.mem_of_mem_drop (List.mem_of_mem_take hmem))
      have hlen := filterMap_id_length _ hsub
      constructor
      · show ms ≤ (make_chunk topic _ _).segment_ids.length
        simp only [make_chunk]
        omega
      · have hbud := (trimWindow_spec topic mt ms ((segments.drop idx).take mx)).2.2.1
        rw [(trimWindow_spec topic mt ms ((segments.drop idx).take mx)).1]
        rcases hbud with hb | hb
        · exact Or.inl
            ((trimWindow_spec topic mt ms ((segments.drop idx).take mx)).1 ▸ hb)
        · refine Or.inr ?_
          show (make_chunk topic _ _).segment_ids.length = ms
          simp only [make_chunk]
          omega
    · exact ih _ c htail

theorem topic_ranges_mem (topics : List Topic) (segments : List Segment) :
    ∀ tr ∈ topic_ranges topics segments, ∀ s ∈ tr.2, s ∈ segments := by
  intro tr htr s hs
  unfold topic_ranges at htr
  split at htr
  · simp only [List.mem_singleton] at htr
    subst htr
    exact hs
  · obtain ⟨t, _, heq⟩ := List.mem_map.mp htr
    subst heq
    rcases hst : t.start_seg_id with _ | a <;> rcases hen : t.end_seg_id with _ | b <;>
      simp only [hst, hen] at hs
    · exact hs
    · exact hs
    · exact hs
    · split at hs
      · split at hs
        · exact List.mem_of_mem_drop (List.mem_of_mem_take hs)
        · exact hs
      · exact hs

theorem orderedSegments_ids (segments : List Segment) :
    ∀ s ∈ orderedSegments segments, s.id.isSome = true := by
  intro s hs
  unfold orderedSegments at hs
  exact (List.mem_filter.mp ((mem_stableSort _ _ _).mp hs)).2

/-- C3: for every chunk produced by `build_chunks_from_topics` (any topics,
segments and parameters), the estimated token count of its rendered text,
`max(1, chars / 4)`, is at most `max_tokens` unless the chunk's window holds
exactly `min_segs` segments; and no chunk whose window was collapsed below
`min_segs` is ever emitted (every chunk has at least `min_segs` segments). -/
theorem build_chunks_token_budget (topics : List Topic) (segments : List Segment)
    (max_tokens min_segs max_segs overlap : Nat) :
    ∀ c ∈ build_chunks_from_topics topics segments max_tokens min_segs max_segs overlap,
      min_segs ≤ c.segment_ids.length ∧
      (estimate_tokens c.chunk_text ≤ max_tokens ∨ c.segment_ids.length = min_segs) := by
  intro c hc
  unfold build_chunks_from_topics at hc
  split at hc
  · simp at hc
  · obtain ⟨tr, htr, hcc⟩ := List.mem_flatMap.mp hc
    have hids : ∀ s ∈ segsToUse (orderedSegments segments) min_segs tr,
        s.id.isSome = true := by
      intro s hs
      unfold segsToUse at hs
      split at hs
      · exact orderedSegments_ids segments s
          (topic_ranges_mem topics (orderedSegments segments) tr htr s hs)
      · exact orderedSegments_ids segments s hs
    exact buildWindowsAux_budget tr.1 _ max_tokens min_segs max_segs overlap hids
      (segsToUse (orderedSegments segments) min_segs tr).length 0 c hcc

/-- C3 (witness). -/
theorem build_chunks_token_budget_witness :
    2 ≤ ((build_chunks_from_topics []
        [⟨some 1, none, none, none, none, "a"⟩, ⟨some 2, none, none, none, none, "b"⟩,
         ⟨some 3, none, none, none, none, "c"⟩] 800 2 6 1).headD
        ⟨none, none, none, none, none, [], ""⟩).segment_ids.length ∧
      (estimate_tokens ((build_chunks_from_topics []
          [⟨some 1, none, none, none, none, "a"⟩, ⟨some 2, none, none, none, none, "b"⟩,
           ⟨some 3, none, none, none, none, "c"⟩] 800 2 6 1).headD
          ⟨none, none, none, none, none, [], ""⟩).chunk_text ≤ 800 ∨
        ((build_chunks_from_topics []
          [⟨some 1, none, none, none, none, "a"⟩, ⟨some 2, none, none, none, none, "b"⟩,
           ⟨some 3, none, none, none, none, "c"⟩] 800 2 6 1).headD
          ⟨none, none, none, none, none, [], ""⟩).segment_ids.length = 2) :=
  build_chunks_token_budget []
    [⟨some 1, none, none, none, none, "a"⟩, ⟨some 2, none, none, none, none, "b"⟩,
     ⟨some 3, none, none, none, none, "c"⟩] 800 2 6 1 _ (by decide)

theorem trimWindow_noop (topic : Option Topic) (mt ms : Nat) (w : List Segment)
    (h : estimate_tokens (build_chunk_text topic w) ≤ mt) :
    trimWindow topic mt ms w = (w, build_chunk_text topic w) := by
  unfold trimWindow
  rcases hl : w.length with _ | n
  · simp [trimWindowAux]
  · simp only [trimWindowAux]
    rw [if_neg]
    intro hcontra
    omega

theorem filterMap_id_eq_map (w : List Segment) (h : ∀ s ∈ w, s.id.isSome = true) :
    w.filterMap (fun s => s.id) = w.map (fun s => s.id.getD 0) := by
  induction w with
  | nil => simp
  | cons s ws ih =>
    obtain ⟨i, hi⟩ := Option.isSome_iff_exists.mp (h s (List.mem_cons_self s ws))
    simp [List.filterMap_cons, hi, ih (fun x hx => h x (List.mem_cons_of_mem _ hx))]

theorem window_overlap_slice (segments : List Segment) (idx mx ov : Nat)
    (hlen : ov < ((segments.drop idx).take mx).length) :
    ((segments.drop idx).take mx).drop (((segments.drop idx).take mx).length - ov) =
      ((segments.drop (idx + (((segments.drop idx).take mx).length - ov))).take mx).take ov := by
  have hwl : ((segments.drop idx).take mx).length = min mx (segments.length - idx) := by
    simp [List.length_take, List.length_drop]
  rw [List.drop_take, List.drop_drop, List.take_take]
  apply List.take_eq_take.mpr
  have hxlen : (segments.drop (idx + (((segments.drop idx).take mx).length - ov))).length =
      segments.length - (idx + (((segments.drop idx).take mx).length - ov)) := by
    simp [List.length_drop]
  rw [hxlen]
  omega

theorem buildWindowsAux_head (topic : Option Topic) (segments : List Segment)
    (mt ms mx ov : Nat)
    (hnt : ∀ i, estimate_tokens (build_chunk_text topic ((segments.drop i).take mx)) ≤ mt)
    (fuel idx : Nat) :
    (buildWindowsAux topic segments mt ms mx ov fuel idx).head? = none ∨
    ((buildWindowsAux topic segments mt ms mx ov fuel idx).head? =
      some (make_chunk topic ((segments.drop idx).take mx)
        (build_chunk_text topic ((segments.drop idx).take mx))) ∧
      ms ≤ ((segments.drop idx).take mx).length) := by
  cases fuel with
  | zero => exact Or.inl rfl
  | succ fuel =>
    by_cases h1 : idx < segments.length
    · by_cases h2 : ((segments.drop idx).take mx).length < ms
      · exact Or.inl (by simp only [buildWindowsAux, if_pos h1, if_pos h2, List.head?_nil])
      · refine Or.inr ⟨?_, by omega⟩
        simp only [buildWindowsAux, if_pos h1, if_neg h2,
          trimWindow_noop topic mt ms _ (hnt idx), List.head?_cons]
    · exact Or.inl (by simp only [buildWindowsAux, if_neg h1, List.head?_nil])

theorem buildWindowsAux_chain (topic : Option Topic) (segments : List Segment)
    (mt ms mx ov : Nat)
    (hnt : ∀ i, estimate_tokens (build_chunk_text topic ((segments.drop i).take mx)) ≤ mt)
    (hov : ov < ms)
    (hids : ∀ s ∈ segments, s.id.isSome = true) :
    ∀ fuel idx, List.Chain'
      (fun a b => a.segment_ids.drop (a.segment_ids.length - ov) = b.segment_ids.take ov)
      (buildWindowsAux topic segments mt ms mx ov fuel idx) := by
  intro fuel
  induction fuel with
  | zero =>
    intro idx
    exact List.chain'_nil
  | succ fuel ih =>
    intro idx
    by_cases h1 : idx < segments.length
    case neg =>
      simp only [buildWindowsAux, if_neg h1]
      exact List.chain'_nil
    by_cases h2 : ((segments.drop idx).take mx).length < ms
    case pos =>
      simp only [buildWindowsAux, if_pos h1, if_pos h2]
      exact List.chain'_nil
    have hno := trimWindow_noop topic mt ms ((segments.drop idx).take mx) (hnt idx)
    have hstep : buildWindowsAux topic segments mt ms mx ov (fuel + 1) idx =
        make_chunk topic ((segments.drop idx).take mx)
            (build_chunk_text topic ((segments.drop idx).take mx)) ::
          buildWindowsAux topic segments mt ms mx ov fuel
            (idx + max 1 (((segments.drop idx).take mx).length - ov)) := by
      simp only [buildWindowsAux, if_pos h1, if_neg h2, hno]
    rw [hstep]
    apply List.chain'_cons'.mpr
    refine ⟨?_, ih _⟩
    intro b hb
    rcases buildWindowsAux_head topic segments mt ms mx ov hnt fuel
        (idx + max 1 (((segments.drop idx).take mx).length - ov)) with hnil | ⟨hcons, hms'⟩
    · rw [hnil] at hb
      simp at hb
    · rw [hcons] at hb
      simp only [Option.mem_def, Option.some.injEq] at hb
      subst hb
      have hwlen : ms ≤ ((segments.drop idx).take mx).length := by omega
      have hmax : max 1 (((segments.drop idx).take mx).length - ov) =
          ((segments.drop idx).take mx).length - ov := by omega
      rw [hmax]
      have hmemw : ∀ s ∈ (segments.drop idx).take mx, s.id.isSome = true :=
        fun s hs => hids s (List.mem_of_mem_drop (List.mem_of_mem_take hs))
      have hmemw' : ∀ s ∈ (segments.drop
          (idx + (((segments.drop idx).take mx).length - ov))).take mx, s.id.isSome = true :=
        fun s hs => hids s (List.mem_of_mem_drop (List.mem_of_mem_take hs))
      show (make_chunk topic ((segments.drop idx).take mx) _).segment_ids.drop _ =
        (make_chunk topic _ _).segment_ids.take ov
      simp only [make_chunk]
      rw [filterMap_id_eq_map _ hmemw, filterMap_id_eq_map _ hmemw']
      rw [List.length_map, ← List.map_take, ← List.map_drop]
      rw [window_overlap_slice segments idx mx ov (by omega)]

/-- C6 (counterexample): with `overlap = 3`, `min_segs = 1`, `max_segs = 2`
and a generous token budget, the run of three segments produces three chunks
with no token trimming (every chunk is within budget), yet consecutive
chunks share only one segment, not `overlap = 3`: the advance
`max(1, len(window) - overlap)` is clamped to 1, so the claim's
"consecutive chunks overlap by exactly `overlap` segments" fails as stated. -/
theorem chunk_overlap_clamped_counterexample :
    ((build_topic_chunks none
        [⟨some 1, none, none, none, none, "a"⟩, ⟨some 2, none, none, none, none, "b"⟩,
         ⟨some 3, none, none, none, none, "c"⟩] 1000 1 2 3).map (fun c => c.segment_ids) =
      [[1, 2], [2, 3], [3]]) ∧
    (∀ c ∈ build_topic_chunks none
        [⟨some 1, none, none, none, none, "a"⟩, ⟨some 2, none, none, none, none, "b"⟩,
         ⟨some 3, none, none, none, none, "c"⟩] 1000 1 2 3,
      estimate_tokens c.chunk_text ≤ 1000) ∧
    ¬ (((build_topic_chunks none
          [⟨some 1, none, none, none, none, "a"⟩, ⟨some 2, none, none, none, none, "b"⟩,
           ⟨some 3, none, none, none, none, "c"⟩] 1000 1 2 3).headD
          ⟨none, none, none, none, none, [], ""⟩).segment_ids.drop
        ((((build_topic_chunks none
          [⟨some 1, none, none, none, none, "a"⟩, ⟨some 2, none, none, none, none, "b"⟩,
           ⟨some 3, none, none, none, none, "c"⟩] 1000 1 2 3).headD
          ⟨none, none, none, none, none, [], ""⟩).segment_ids).length - 3) =
        (((build_topic_chunks none
          [⟨some 1, none, none, none, none, "a"⟩, ⟨some 2, none, none, none, none, "b"⟩,
           ⟨some 3, none, none, none, none, "c"⟩] 1000 1 2 3).drop 1).headD
          ⟨none, none, none, none, none, [], ""⟩).segment_ids.take 3) := by
  decide

/-- C6 (amended): after emitting a chunk the windower advances the window
start by `max(1, len(window) - overlap)`; hence, provided
`overlap < min_segs` (in particular with the defaults `overlap = 1`,
`min_segs = 2`, under which the advance is never clamped), when no token
trimming shortened a window, every pair of consecutive chunks from the same
topic/segment run overlaps by exactly `overlap` segments — the last
`overlap` segment ids of each chunk are exactly the first `overlap` segment
ids of the next; and no window with fewer than `min_segs` segments is ever
emitted. -/
theorem build_topic_chunks_overlap (topic : Option Topic) (segments : List Segment)
    (mt ms mx ov : Nat)
    (hnt : ∀ i, estimate_tokens (build_chunk_text topic ((segments.drop i).take mx)) ≤ mt)
    (hov : ov < ms)
    (hids : ∀ s ∈ segments, s.id.isSome = true) :
    List.Chain'
      (fun a b => a.segment_ids.drop (a.segment_ids.length - ov) = b.segment_ids.take ov)
      (build_topic_chunks topic segments mt ms mx ov) ∧
    ∀ c ∈ build_topic_chunks topic segments mt ms mx ov, ms ≤ c.segment_ids.length :=
  ⟨buildWindowsAux_chain topic segments mt ms mx ov hnt hov hids segments.length 0,
   fun c hc =>
     (buildWindowsAux_budget topic segments mt ms mx ov hids segments.length 0 c hc).1⟩

/-- C6 (witness). -/
theorem build_topic_chunks_overlap_witness :
    List.Chain'
      (fun a b => a.segment_ids.drop (a.segment_ids.length - 1) = b.segment_ids.take 1)
      (build_topic_chunks none
        [⟨some 1, none, none, none, none, "a"⟩, ⟨some 2, none, none, none, none, "b"⟩,
         ⟨some 3, none, none, none, none, "c"⟩] 800 2 2 1) ∧
    ∀ c ∈ build_topic_chunks none
        [⟨some 1, none, none, none, none, "a"⟩, ⟨some 2, none, none, none, none, "b"⟩,
         ⟨some 3, none, none, none, none, "c"⟩] 800 2 2 1,
      2 ≤ c.segment_ids.length :=
  build_topic_chunks_overlap none
    [⟨some 1, none, none, none, none, "a"⟩, ⟨some 2, none, none, none, none, "b"⟩,
     ⟨some 3, none, none, none, none, "c"⟩] 800 2 2 1
    (by
      intro i
      match i with
      | 0 => decide
      | 1 => decide
      | 2 => decide
      | n + 3 =>
        rw [List.drop_eq_nil_of_le (by simp)]
        decide)
    (by decide) (by decide)

/-- C5 (counterexample): for an episode with no segments and a failing
embed/search step, the QA path returns no hits and an empty citation list —
"the QA path always produces some citations" fails as stated. -/
theorem qa_fallback_no_segments_counterexample :
    qaHits none (String.mk [ 'q' ]) [] = [] ∧
      qaCitations (qaHits none (String.mk [ 'q' ]) []) = [] := by
  constructor
  · rfl
  · rfl

/-- C5 (amended): if the embed/search step of the QA path raises
(`fusion = none`) or yields no segments (`fusion = some []`), `qa_chain`
does not fail: every segment whose text contains the raw question as a
case-insensitive substring is among the hits; if no segment matches, the
hits are the first 3 segments of the episode; and provided the episode has
at least one segment, the citation list is nonempty. -/
theorem qa_fallback_tiers (question : String) (segments : List Segment)
    (fusion : Option (List Segment)) (hfail : fusion = none ∨ fusion = some []) :
    (∀ seg ∈ segments, pyInStr question seg.text = true →
        seg ∈ qaHits fusion question segments) ∧
    ((∀ seg ∈ segments, pyInStr question seg.text = false) →
        qaHits fusion question segments = segments.take 3) ∧
    (segments ≠ [] → qaCitations (qaHits fusion question segments) ≠ []) := by
  have h0 : fusion.getD [] = ([] : List Segment) := by
    rcases hfail with rfl | rfl <;> rfl
  refine ⟨?_, ?_, ?_⟩
  · intro seg hseg hmatch
    by_cases hm : segments.filter (fun s => pyInStr question s.text) = []
    · exfalso
      have hin : seg ∈ segments.filter (fun s => pyInStr question s.text) :=
        List.mem_filter.mpr ⟨hseg, hmatch⟩
      rw [hm] at hin
      simp at hin
    · simp only [qaHits, h0, if_pos rfl, if_neg hm]
      exact List.mem_filter.mpr ⟨hseg, hmatch⟩
  · intro hall
    have hm : segments.filter (fun s => pyInStr question s.text) = [] := by
      rw [List.filter_eq_nil_iff]
      intro a ha
      simp [hall a ha]
    simp [qaHits, h0, hm]
  · intro hne
    have hhits : qaHits fusion question segments ≠ [] := by
      simp only [qaHits, h0]
      simp only [if_true]
      split
      · simp only [ne_eq, List.take_eq_nil_iff]
        push_neg
        exact ⟨by omega, hne⟩
      · rename_i hm
        exact hm
    simp only [qaCitations, ne_eq, List.map_eq_nil_iff, List.take_eq_nil_iff]
    push_neg
    exact ⟨by omega, hhits⟩

/-- C5 (witness). -/
theorem qa_fallback_tiers_witness :
    (∀ seg ∈ [{ id := some 7, speaker := none, t_start_sec := none, t_end_sec := none,
                youtube_url := none, text := "the answer is here" : Segment }],
      pyInStr (String.mk [ 'h', 'e', 'r', 'e' ]) seg.text = true →
        seg ∈ qaHits none (String.mk [ 'h', 'e', 'r', 'e' ])
          [{ id := some 7, speaker := none, t_start_sec := none, t_end_sec := none,
             youtube_url := none, text := "the answer is here" }]) ∧
    ((∀ seg ∈ [{ id := some 7, speaker := none, t_start_sec := none, t_end_sec := none,
                 youtube_url := none, text := "the answer is here" : Segment }],
      pyInStr (String.mk [ 'h', 'e', 'r', 'e' ]) seg.text = false) →
        qaHits none (String.mk [ 'h', 'e', 'r', 'e' ])
          [{ id := some 7, speaker := none, t_start_sec := none, t_end_sec := none,
             youtube_url := none, text := "the answer is here" }] =
          [{ id := some 7, speaker := none, t_start_sec := none, t_end_sec := none,
             youtube_url := none, text := "the answer is here" }].take 3) ∧
    ([{ id := some 7, speaker := none, t_start_sec := none, t_end_sec := none,
        youtube_url := none, text := "the answer is here" : Segment }] ≠ [] →
      qaCitations (qaHits none (String.mk [ 'h', 'e', 'r', 'e' ])
        [{ id := some 7, speaker := none, t_start_sec := none, t_end_sec := none,
           youtube_url := none, text := "the answer is here" }]) ≠ []) :=
  qa_fallback_tiers (String.mk [ 'h', 'e', 'r', 'e' ])
    [{ id := some 7, speaker := none, t_start_sec := none, t_end_sec := none,
       youtube_url := none, text := "the answer is here" }]
    none (Or.inl rfl)

theorem dictLookup_dictSet (m : ScoreDict) (k : Nat) (v : ℚ) (k' : Nat) :
    dictLookup (dictSet m k v) k' = if k' = k then some v else dictLookup m k' := by
  induction m with
  | nil =>
    by_cases h : k' = k
    · simp [dictSet, dictLookup, List.find?, h]
    · have hk : ¬ k = k' := fun hc => h hc.symm
      simp [dictSet, dictLookup, List.find?, h, hk]
  | cons p rest ih =>
    by_cases hpk : p.1 = k
    · by_cases h : k' = k
      · simp [dictSet, dictLookup, List.find?, hpk, h]
      · have hk : ¬ k = k' := fun hc => h hc.symm
        have hpk' : ¬ p.1 = k' := by rw [hpk]; exact hk
        simp [dictSet, dictLookup, List.find?, hpk, h, hk, hpk']
    · by_cases hp' : p.1 = k'
      · have h : ¬ k' = k := by rw [← hp']; exact fun hc => hpk hc
        simp [dictSet, dictLookup, List.find?, hpk, hp', h]
      · simp only [dictSet, if_neg hpk]
        have hl : dictLookup (p :: dictSet rest k v) k' =
            dictLookup (dictSet rest k v) k' := by
          simp [dictLookup, List.find?, hp']
        have hr : dictLookup (p :: rest) k' = dictLookup rest k' := by
          simp [dictLookup, List.find?, hp']
        rw [hl, ih, hr]

theorem fuse_stream_lookup (cid : Nat) (stream : List (Nat × ℚ)) :
    ∀ (m : ScoreDict),
      dictLookup (stream.foldl fuseStep m) cid =
        ((stream.filter (fun p => p.1 = cid)).map (fun p => 1 / (1 + p.2))).foldl
          (fun o s => some (max (o.getD 0) s)) (dictLookup m cid) := by
  induction stream with
  | nil => intro m; rfl
  | cons p rest ih =>
    intro m
    simp only [List.foldl_cons]
    rw [ih]
    by_cases hp : p.1 = cid
    · have hlk : dictLookup (fuseStep m p) cid =
          some (max ((dictLookup m cid).getD 0) (1 / (1 + p.2))) := by
        unfold fuseStep
        rw [dictLookup_dictSet, if_pos hp.symm, hp]
      rw [hlk]
      simp [List.filter_cons, hp]
    · have hlk : dictLookup (fuseStep m p) cid = dictLookup m cid := by
        unfold fuseStep
        rw [dictLookup_dictSet, if_neg (fun hc => hp hc.symm)]
      rw [hlk]
      simp [List.filter_cons, hp]

theorem pyMaxFold_some (xs : List ℚ) :
    ∀ v : ℚ, xs.foldl (fun o s => some (max (o.getD 0) s)) (some v) =
      some (xs.foldl max v) := by
  induction xs with
  | nil => intro v; rfl
  | cons x xs ih =>
    intro v
    simp only [List.foldl_cons, Option.getD_some]
    exact ih (max v x)

theorem pyMaxFold_eq_listMax (l : List ℚ) (h : ∀ x ∈ l, 0 ≤ x) :
    l.foldl (fun o s => some (max (o.getD 0) s)) none = listMax? l := by
  cases l with
  | nil => rfl
  | cons x xs =>
    simp only [List.foldl_cons, listMax?, Option.getD_none]
    rw [max_eq_right (h x (List.mem_cons_self x xs))]
    exact pyMaxFold_some xs x

theorem chunkScores_lookup (results : List (List (Nat × ℚ)))
    (hd : ∀ l ∈ results, ∀ p ∈ l, 0 ≤ p.2) (cid : Nat) :
    dictLookup (chunkScores results) cid = listMax? (specChunkScores results cid) := by
  have hflat : chunkScores results = (results.flatten).foldl fuseStep [] := by
    unfold chunkScores
    exact (List.foldl_flatten fuseStep [] results).symm
  rw [hflat, fuse_stream_lookup]
  show ((results.flatten.filter (fun p => p.1 = cid)).map
      (fun p => 1 / (1 + p.2))).foldl (fun o s => some (max (o.getD 0) s)) none =
    listMax? (specChunkScores results cid)
  rw [pyMaxFold_eq_listMax]
  · rfl
  · intro x hx
    obtain ⟨q, hq, hqx⟩ := List.mem_map.mp hx
    have hq0 : 0 ≤ q.2 := by
      obtain ⟨l, hl, hql⟩ := List.mem_flatten.mp (List.mem_filter.mp hq).1
      exact hd l hl q hql
    rw [← hqx]
    positivity

/-- C4: the fused score that `qa_chain` records for every chunk id equals
the maximum over all queries that retrieved it of `1/(1+distance)` (given
nonnegative distances, as a vector search returns); in particular, for a
chunk retrieved by one query at distance `d1` and by another at distance
`d2 ≥ d1`, the fused score is `1/(1+d1)` — the max, not a sum or average. -/
theorem fusion_score_is_max (results : List (List (Nat × ℚ)))
    (hd : ∀ l ∈ results, ∀ p ∈ l, 0 ≤ p.2) (cid : Nat) :
    dictLookup (chunkScores results) cid = listMax? (specChunkScores results cid) ∧
    ∀ (x : Nat) (d1 d2 : ℚ), 0 ≤ d1 → d1 ≤ d2 →
      dictLookup (chunkScores [[(x, d1)], [(x, d2)]]) x = some (1 / (1 + d1)) := by
  constructor
  · exact chunkScores_lookup results hd cid
  · intro x d1 d2 h1 h12
    have hs1 : (0 : ℚ) ≤ 1 / (1 + d1) := by positivity
    have hs2 : 1 / (1 + d2) ≤ 1 / (1 + d1) :=
      one_div_le_one_div_of_le (by linarith) (by linarith)
    show dictLookup (fuseStep (fuseStep [] (x, d1)) (x, d2)) x = some (1 / (1 + d1))
    unfold fuseStep
    rw [dictLookup_dictSet, if_pos rfl]
    rw [dictLookup_dictSet, if_pos rfl]
    have hbase : dictLookup [] x = none := rfl
    rw [hbase]
    simp only [Option.getD_none, Option.getD_some]
    rw [max_eq_right hs1, max_eq_left hs2]

/-- C4 (witness). -/
theorem fusion_score_is_max_witness :
    (dictLookup (chunkScores [[(1, 1/10)], [(1, 1/2)]]) 1 =
      listMax? (specChunkScores [[(1, 1/10)], [(1, 1/2)]] 1)) ∧
    dictLookup (chunkScores [[(1, 1/10)], [(1, 1/2)]]) 1 = some (1 / (1 + 1/10)) := by
  have h := fusion_score_is_max [[(1, 1/10)], [(1, 1/2)]]
    (by
      intro l hl p hp
      rcases List.mem_cons.mp hl with rfl | hl'
      · rcases List.mem_cons.mp hp with rfl | hp'
        · norm_num
        · simp at hp'
      · rcases List.mem_cons.mp hl' with rfl | hl''
        · rcases List.mem_cons.mp hp with rfl | hp'
          · norm_num
          · simp at hp'
        · simp at hl'') 1
  exact ⟨h.1, h.2 1 (1/10) (1/2) (by norm_num) (by norm_num)⟩

theorem dictSet_keys (m : ScoreDict) (k : Nat) (v : ℚ) :
    (dictSet m k v).map (fun p => p.1) =
      if k ∈ m.map (fun p => p.1) then m.map (fun p => p.1)
      else m.map (fun p => p.1) ++ [k] := by
  induction m with
  | nil => simp [dictSet]
  | cons p rest ih =>
    by_cases hpk : p.1 = k
    · simp [dictSet, hpk]
    · have hk : ¬ k = p.1 := fun hc => hpk hc.symm
      simp only [dictSet, if_neg hpk, List.map_cons, ih, List.mem_cons]
      by_cases hkr : k ∈ rest.map (fun p => p.1)
      · simp [hkr, hk]
      · simp [hkr, hk]

theorem fuse_stream_keys (stream : List (Nat × ℚ)) :
    ∀ m : ScoreDict,
      (stream.foldl fuseStep m).map (fun p => p.1) =
        (stream.map (fun p => p.1)).foldl
          (fun acc x => if x ∈ acc then acc else acc ++ [x]) (m.map (fun p => p.1)) := by
  induction stream with
  | nil => intro m; rfl
  | cons p rest ih =>
    intro m
    simp only [List.foldl_cons, List.map_cons]
    rw [ih]
    congr 1
    unfold fuseStep
    exact dictSet_keys m p.1 _

theorem chunkScores_keys (results : List (List (Nat × ℚ))) :
    (chunkScores results).map (fun p => p.1) = specFirstEncounter results := by
  have hflat : chunkScores results = (results.flatten).foldl fuseStep [] := by
    unfold chunkScores
    exact (List.foldl_flatten fuseStep [] results).symm
  rw [hflat, fuse_stream_keys]
  rfl

theorem stableInsert_congr {α : Type} (gb gb' : α → α → Bool)
    (h : ∀ a b, gb a b = gb' a b) (x : α) (l : List α) :
    stableInsert gb x l = stableInsert gb' x l := by
  induction l with
  | nil => rfl
  | cons y ys ih =>
    simp only [stableInsert]
    rw [h x y]
    split
    · rfl
    · rw [ih]

theorem stableSort_congr {α : Type} (gb gb' : α → α → Bool)
    (h : ∀ a b, gb a b = gb' a b) (l : List α) :
    stableSort gb l = stableSort gb' l := by
  unfold stableSort
  suffices hgen : ∀ acc, l.foldl (fun acc x => stableInsert gb x acc) acc =
      l.foldl (fun acc x => stableInsert gb' x acc) acc from hgen []
  induction l with
  | nil => intro acc; rfl
  | cons y ys ih =>
    intro acc
    simp only [List.foldl_cons]
    rw [stableInsert_congr gb gb' h y acc, ih]

theorem rankedChunkIds_eq_spec (results : List (List (Nat × ℚ)))
    (hd : ∀ l ∈ results, ∀ p ∈ l, 0 ≤ p.2) :
    rankedChunkIds (chunkScores results) = specRankedChunkIds results := by
  unfold rankedChunkIds specRankedChunkIds
  rw [chunkScores_keys]
  apply stableSort_congr
  intro a b
  rw [chunkScores_lookup results hd a, chunkScores_lookup results hd b]
  rfl

/-- C2 (amended): in the QA fusion path, the fused segment-id sequence
(`chunk_segment_ids`) equals exactly the claimed composition — rank fused
chunk ids by descending max score with ties in first-encounter order, expand
each ranked chunk to its member-segment ids in chunk-definition order,
concatenate, deduplicate keeping first occurrences — but the returned
Segment rows are fetched by an `IN` query with no ORDER BY: they come back
in segments-table row order restricted to that id set, not reordered to the
ranked order. -/
theorem qa_fusion_segment_order (table : List Segment)
    (results : List (List (Nat × ℚ))) (chunkSegs : Nat → List Nat)
    (hd : ∀ l ∈ results, ∀ p ∈ l, 0 ≤ p.2) :
    qaChunkSegmentIds results chunkSegs = specFusionSegmentIds results chunkSegs ∧
    qaFusionHits table results chunkSegs =
      (if qaChunkSegmentIds results chunkSegs = [] then []
       else table.filter (fun s =>
         match s.id with
         | some i => decide (i ∈ qaChunkSegmentIds results chunkSegs)
         | none => false)) := by
  constructor
  · unfold qaChunkSegmentIds specFusionSegmentIds
    rw [rankedChunkIds_eq_spec results hd]
  · rfl

/-- C2 (counterexample): with chunk 1 holding segment 1, chunk 2 holding
segment 2, one query retrieving chunk 1 at distance 1 and another retrieving
chunk 2 at distance 0, the fused ranked segment-id sequence is `[2, 1]`, yet
the returned segments are `[segment 1, segment 2]` — table row order, not
the ranked order the claim states for the output sequence. -/
theorem qa_fusion_hits_order_counterexample :
    qaChunkSegmentIds [[(1, 1)], [(2, 0)]]
        (fun cid => if cid = 1 then [1] else if cid = 2 then [2] else []) = [2, 1] ∧
    (qaFusionHits
        [⟨some 1, none, none, none, none, "x"⟩, ⟨some 2, none, none, none, none, "y"⟩]
        [[(1, 1)], [(2, 0)]]
        (fun cid => if cid = 1 then [1] else if cid = 2 then [2] else [])).map
      (fun s => s.id) = [some 1, some 2] := by
  constructor
  · norm_num [qaChunkSegmentIds, chunkScores, fuseStep, dictSet, dictLookup, List.find?,
      rankedChunkIds, stableSort, stableInsert, pyDictFromKeys, List.flatMap]
  · norm_num [qaFusionHits, fetch_segments_by_ids, qaChunkSegmentIds, chunkScores,
      fuseStep, dictSet, dictLookup, List.find?, rankedChunkIds, stableSort,
      stableInsert, pyDictFromKeys, List.flatMap, List.filter]
    simp

/-- C2 (witness). -/
theorem qa_fusion_segment_order_witness :
    (qaChunkSegmentIds [[(1, 1)], [(2, 0)]]
        (fun cid => if cid = 1 then [1] else if cid = 2 then [2] else []) =
      specFusionSegmentIds [[(1, 1)], [(2, 0)]]
        (fun cid => if cid = 1 then [1] else if cid = 2 then [2] else [])) ∧
    qaFusionHits
        [⟨some 1, none, none, none, none, "x"⟩, ⟨some 2, none, none, none, none, "y"⟩]
        [[(1, 1)], [(2, 0)]]
        (fun cid => if cid = 1 then [1] else if cid = 2 then [2] else []) =
      (if qaChunkSegmentIds [[(1, 1)], [(2, 0)]]
          (fun cid => if cid = 1 then [1] else if cid = 2 then [2] else []) = [] then []
       else
        [⟨some 1, none, none, none, none, "x"⟩,
         ⟨some 2, none, none, none, none, "y"⟩].filter (fun s =>
          match s.id with
          | some i => decide (i ∈ qaChunkSegmentIds [[(1, 1)], [(2, 0)]]
              (fun cid => if cid = 1 then [1] else if cid = 2 then [2] else []))
          | none => false)) :=
  qa_fusion_segment_order
    [⟨some 1, none, none, none, none, "x"⟩, ⟨some 2, none, none, none, none, "y"⟩]
    [[(1, 1)], [(2, 0)]]
    (fun cid => if cid = 1 then [1] else if cid = 2 then [2] else [])
    (by
      intro l hl p hp
      rcases List.mem_cons.mp hl with rfl | hl'
      · rcases List.mem_cons.mp hp with rfl | hp'
        · norm_num
        · simp at hp'
      · rcases List.mem_cons.mp hl' with rfl | hl''
        · rcases List.mem_cons.mp hp with rfl | hp'
          · norm_num
          · simp at hp'
        · simp at hl'')
